import Mathlib

/-!
Verification of the oblivious Fibonacci evaluator (src/main.rs).

The program computes Fibonacci numbers over TFHE-encrypted 16-bit indices
using two strategies: iterative homomorphic recurrence (`fibonacci_additions`)
and table lookup (`fibonacci_lookup_with_tables`).  The ciphertext capability
(encrypt, decrypt, homomorphic add, equality, select on `FheUint16`) is an
external collaborator; its contract makes decryption a homomorphism from
ciphertext operations to `u16` plaintext operations.  Accordingly we embed
ciphertexts by their decrypted plaintext values in `[0, 2^16)`:

  - `encrypt v` is the plaintext held by the ciphertext `FheUint16::encrypt(v)`;
  - homomorphic addition is addition modulo `2^16` (wrapping `u16` addition);
  - the homomorphic equality test is the boolean equality of the plaintexts;
  - oblivious select is the boolean multiplexer on plaintexts.

All functions of the program are then translated directly, loop by loop.
-/

namespace FibFhe

/-- The modulus of the `u16` / `FheUint16` value domain. -/
def U16 : Nat := 65536

/-- `const MAX_FIBONACCI_INDEX: u16 = 24;` — maximum supported index for
16-bit Fibonacci; `F(25) = 75025` exceeds `u16::MAX`. -/
def MAX_FIBONACCI_INDEX : Nat := 24

/-- Plaintext view of `FheUint16::encrypt`: the value the ciphertext holds,
reduced into the `u16` domain. -/
def encrypt (v : Nat) : Nat := v % U16

/-- Plaintext view of `FheUint16::decrypt`: the identity on the held value. -/
def decrypt (c : Nat) : Nat := c

/-- Plaintext view of homomorphic addition on `FheUint16`: wrapping `u16`
addition. -/
def fheAdd (x y : Nat) : Nat := (x + y) % U16

/-- Plaintext view of the homomorphic equality test `n.eq(m)`; the resulting
encrypted boolean is represented by the boolean it decrypts to. -/
def fheEq (x y : Nat) : Bool := x == y

/-- Plaintext view of the oblivious select `cond.select(a, b)`. -/
def fheSelect (c : Bool) (x y : Nat) : Nat := if c then x else y

/-- `build_encrypted_indices`: encrypts each integer `0..=MAX_FIBONACCI_INDEX`
(one independent encryption per entry; the parallel `collect` preserves index
order, so the table is the ordered list of encryptions). -/
def build_encrypted_indices : List Nat :=
  (List.range (MAX_FIBONACCI_INDEX + 1)).map encrypt

/-- `build_fibonacci_table_plain`: plaintext Fibonacci table up to
`MAX_FIBONACCI_INDEX`, built with `wrapping_add`.  State is the running pair
`(a, b)` together with the table built so far; the loop body first pushes `b`
and then advances the pair. -/
def build_fibonacci_table_plain : List Nat :=
  ((List.range' 1 MAX_FIBONACCI_INDEX).foldl
    (fun (s : Nat × Nat × List Nat) _ =>
      (s.2.1, (s.1 + s.2.1) % U16, s.2.2 ++ [s.2.1]))
    (0, 1, [0])).2.2

/-- `build_encrypted_fibs`: encrypts every entry of the plaintext table (one
independent encryption per entry, order preserved by the parallel collect). -/
def build_encrypted_fibs : List Nat :=
  build_fibonacci_table_plain.map encrypt

/-- The body of the `for i in 2..=MAX_FIBONACCI_INDEX` loop of
`fibonacci_additions`.  The state is `(a, b, result)`:
`next_fib := a + b`; `a := b`; `b := next_fib`;
`result := select(n == encrypted_indices[i], next_fib, result)`. -/
def fibAddStep (n : Nat) (encrypted_indices : List Nat)
    (s : Nat × Nat × Nat) (i : Nat) : Nat × Nat × Nat :=
  let next_fib := fheAdd s.1 s.2.1
  let i_encrypted := encrypted_indices.getD i 0
  let n_is_i := fheEq n i_encrypted
  (s.2.1, next_fib, fheSelect n_is_i next_fib s.2.2)

/-- `fibonacci_additions`: iterative homomorphic recurrence.  It builds the
encrypted indices internally, seeds
`result := select(n == indices[0], indices[0], indices[1])`
(that is, `F(0)` if `n == 0`, else `F(1)`), then runs the loop body for
`i = 2..=MAX_FIBONACCI_INDEX`. -/
def fibonacci_additions (n : Nat) : Nat :=
  let encrypted_indices := build_encrypted_indices
  let a := encrypted_indices.getD 0 0
  let b := encrypted_indices.getD 1 0
  let n_is_0 := fheEq n a
  let result := fheSelect n_is_0 a b
  ((List.range' 2 (MAX_FIBONACCI_INDEX - 1)).foldl
    (fibAddStep n encrypted_indices) (a, b, result)).2.2

/-- The body of the `for i in 1..=MAX_FIBONACCI_INDEX` loop of
`fibonacci_lookup_with_tables`:
`result := select(n == encrypted_indices[i], encrypted_fibs[i], result)`. -/
def fibLookupStep (n : Nat) (encrypted_indices encrypted_fibs : List Nat)
    (result : Nat) (i : Nat) : Nat :=
  let is_match := fheEq n (encrypted_indices.getD i 0)
  fheSelect is_match (encrypted_fibs.getD i 0) result

/-- `fibonacci_lookup_with_tables`: table lookup over the prebuilt encrypted
tables, starting from `encrypted_fibs[0]`. -/
def fibonacci_lookup_with_tables
    (n : Nat) (encrypted_indices encrypted_fibs : List Nat) : Nat :=
  (List.range' 1 MAX_FIBONACCI_INDEX).foldl
    (fibLookupStep n encrypted_indices encrypted_fibs)
    (encrypted_fibs.getD 0 0)

/-- `fibonacci_plaintext`: plaintext reference; `for _ in 0..n` advancing
`(a, b)` by `tmp := a + b; a := b; b := tmp`, returning `a`.  The additions
are `u16` additions, hence reduced modulo `2^16`. -/
def fibonacci_plaintext (n : Nat) : Nat :=
  ((List.range n).foldl
    (fun (s : Nat × Nat) _ => (s.2, (s.1 + s.2) % U16)) (0, 1)).1

/-- One homomorphic operation executed by `fibonacci_additions`, as observed
by the evaluating server: an addition of ciphertexts, an equality test of the
encrypted input against table position `pos`, or an oblivious select keyed by
the test at table position `pos`. -/
inductive FheOp : Type
  | add : FheOp
  | eqTest : Nat → FheOp
  | sel : Nat → FheOp
deriving DecidableEq, Repr

/-- Is the operation an equality test? -/
def FheOp.isEqTest : FheOp → Bool
  | FheOp.eqTest _ => true
  | _ => false

/-- Is the operation an oblivious select? -/
def FheOp.isSel : FheOp → Bool
  | FheOp.sel _ => true
  | _ => false

/-- The loop body of `fibonacci_additions` instrumented with the trace of
homomorphic operations it executes: the state additionally carries the list
of operations performed so far, and each iteration appends, in execution
order, the addition `a + b`, the equality test against table position `i`,
and the select keyed by it. -/
def fibAddStepTraced (n : Nat) (encrypted_indices : List Nat)
    (s : Nat × Nat × Nat × List FheOp) (i : Nat) : Nat × Nat × Nat × List FheOp :=
  let next_fib := fheAdd s.1 s.2.1
  let i_encrypted := encrypted_indices.getD i 0
  let n_is_i := fheEq n i_encrypted
  (s.2.1, next_fib, fheSelect n_is_i next_fib s.2.2.1,
    s.2.2.2 ++ [FheOp.add, FheOp.eqTest i, FheOp.sel i])

/-- `fibonacci_additions` instrumented with its homomorphic operation trace:
the same computation as `fibonacci_additions`, paired with the list of
homomorphic operations executed, in order.  The seed performs the equality
test against table position `0` and the select keyed by it. -/
def fibonacci_additions_traced (n : Nat) : Nat × List FheOp :=
  let encrypted_indices := build_encrypted_indices
  let a := encrypted_indices.getD 0 0
  let b := encrypted_indices.getD 1 0
  let n_is_0 := fheEq n a
  let result := fheSelect n_is_0 a b
  let final := (List.range' 2 (MAX_FIBONACCI_INDEX - 1)).foldl
    (fibAddStepTraced n encrypted_indices)
    (a, b, result, [FheOp.eqTest 0, FheOp.sel 0])
  (final.2.2.1, final.2.2.2)

/-- The fixed operation schedule of `fibonacci_additions`: one equality test
and one select at position `0`, then, for each `i = 2..=24` in order, one
addition, one equality test at position `i` and one select at position `i`. -/
def ihr_op_schedule : List FheOp :=
  FheOp.eqTest 0 :: FheOp.sel 0 ::
    (List.range' 2 (MAX_FIBONACCI_INDEX - 1)).foldr
      (fun i acc => FheOp.add :: FheOp.eqTest i :: FheOp.sel i :: acc) []

/-- Checked `u16` addition: the value of `a + b` when it fits in `u16`,
`none` on overflow.  Used to express that the unchecked additions of
`fibonacci_plaintext` never overflow on the supported index range. -/
def u16_checked_add (x y : Nat) : Option Nat :=
  if x + y ≤ 65535 then some (x + y) else none

/-- `fibonacci_plaintext` with every addition of its loop body replaced by
the checked addition: returns `none` as soon as an addition overflows. -/
def fibonacci_plaintext_checked (n : Nat) : Option Nat :=
  ((List.range n).foldl
    (fun s _ =>
      s.bind (fun p => (u16_checked_add p.1 p.2).map (fun tmp => (p.2, tmp))))
    (some (0, 1))).map (fun p => p.1)

/-- The numeric value of a list of decimal digit characters, most significant
first. -/
def digitsToNat (cs : List Char) : Nat :=
  cs.foldl (fun acc c => acc * 10 + (c.toNat - Char.toNat '0')) 0

/-- The Rust `str::parse::<u16>()` on a trimmed string: an optional leading
plus sign followed by a nonempty run of decimal digits, whose value fits in
`u16`; anything else (empty string, minus sign, non-digit characters,
overflow) is a parse error, modelled as `none`. -/
def parse_u16 (s : String) : Option Nat :=
  let cs := match s.data with
    | '+' :: rest => rest
    | cs => cs
  if cs ≠ [] ∧ cs.all Char.isDigit then
    let v := digitsToNat cs
    if v ≤ 65535 then some v else none
  else none

/-- Rust's `str::trim`: the string with whitespace removed from both ends. -/
def rust_trim (s : String) : String :=
  String.mk
    (((s.data.dropWhile Char.isWhitespace).reverse.dropWhile
      Char.isWhitespace).reverse)

/-- `get_number_input` applied to one line read from stdin: trims the line and
parses it as a `u16`, propagating a parse failure as an error (`none`).
Note the function performs no range check against `MAX_FIBONACCI_INDEX`. -/
def get_number_input (line : String) : Option Nat :=
  parse_u16 (rust_trim line)

/-- The input loop of `main` over the successive lines typed by the user:
it breaks with the first value `get_number_input` returns successfully and
reprompts (moves to the next line, after an error message) on every parse
error; `none` if the input ends before any line parses. -/
def input_loop : List String → Option Nat
  | [] => none
  | line :: rest =>
    match get_number_input line with
    | some v => some v
    | none => input_loop rest

/-! ### Helper lemmas -/

/-- The trace component of the instrumented loop: each iteration appends its
three operations, independently of the secret input `n`, of the table
contents and of the running values. -/
theorem foldl_fibAddStepTraced_trace (n : Nat) (idx : List Nat) :
    ∀ (l : List Nat) (s : Nat × Nat × Nat × List FheOp),
      (l.foldl (fibAddStepTraced n idx) s).2.2.2 =
        s.2.2.2 ++
          l.foldr (fun i acc => FheOp.add :: FheOp.eqTest i :: FheOp.sel i :: acc)
            [] := by
  intro l
  induction l with
  | nil => intro s; simp
  | cons i l ih =>
    intro s
    simp only [List.foldl_cons, List.foldr_cons]
    rw [ih]
    show s.2.2.2 ++ [FheOp.add, FheOp.eqTest i, FheOp.sel i] ++ _ = _
    simp

/-- The operation trace of `fibonacci_additions_traced` is the fixed schedule
`ihr_op_schedule`, whatever the encrypted input holds. -/
theorem fibonacci_additions_traced_trace (n : Nat) :
    (fibonacci_additions_traced n).2 = ihr_op_schedule := by
  show ((List.range' 2 (MAX_FIBONACCI_INDEX - 1)).foldl
      (fibAddStepTraced n build_encrypted_indices)
      (build_encrypted_indices.getD 0 0, build_encrypted_indices.getD 1 0,
        fheSelect (fheEq n (build_encrypted_indices.getD 0 0))
          (build_encrypted_indices.getD 0 0) (build_encrypted_indices.getD 1 0),
        [FheOp.eqTest 0, FheOp.sel 0])).2.2.2 = ihr_op_schedule
  rw [foldl_fibAddStepTraced_trace]
  rfl

/-- The result component of the instrumented loop agrees with the plain loop
of `fibonacci_additions`. -/
theorem foldl_fibAddStepTraced_result (n : Nat) (idx : List Nat) :
    ∀ (l : List Nat) (a b r : Nat) (tr : List FheOp),
      (l.foldl (fibAddStepTraced n idx) (a, b, r, tr)).2.2.1 =
        (l.foldl (fibAddStep n idx) (a, b, r)).2.2 := by
  intro l
  induction l with
  | nil => intro a b r tr; rfl
  | cons i l ih =>
    intro a b r tr
    simp only [List.foldl_cons]
    exact ih _ _ _ _

/-- The instrumented evaluator computes the same result as
`fibonacci_additions`. -/
theorem fibonacci_additions_traced_result (n : Nat) :
    (fibonacci_additions_traced n).1 = fibonacci_additions n := by
  exact foldl_fibAddStepTraced_result n build_encrypted_indices _ _ _ _ _

/-- If the secret input matches none of the table entries visited by the loop
of `fibonacci_additions`, the running result survives the loop unchanged. -/
theorem foldl_fibAddStep_no_match (n : Nat) (idx : List Nat) :
    ∀ (l : List Nat) (s : Nat × Nat × Nat),
      (∀ i ∈ l, fheEq n (idx.getD i 0) = false) →
      (l.foldl (fibAddStep n idx) s).2.2 = s.2.2 := by
  intro l
  induction l with
  | nil => intro s _; rfl
  | cons i l ih =>
    intro s h
    simp only [List.foldl_cons]
    rw [ih _ (fun j hj => h j (List.mem_cons_of_mem _ hj))]
    show fheSelect (fheEq n (idx.getD i 0)) _ s.2.2 = s.2.2
    rw [h i (List.mem_cons_self _ _)]
    rfl

/-- If the secret input matches none of the table entries visited by the loop
of `fibonacci_lookup_with_tables`, the initial result survives unchanged. -/
theorem foldl_fibLookupStep_no_match (n : Nat) (idx fibs : List Nat) :
    ∀ (l : List Nat) (r : Nat),
      (∀ i ∈ l, fheEq n (idx.getD i 0) = false) →
      l.foldl (fibLookupStep n idx fibs) r = r := by
  intro l
  induction l with
  | nil => intro r _; rfl
  | cons i l ih =>
    intro r h
    simp only [List.foldl_cons]
    rw [ih _ (fun j hj => h j (List.mem_cons_of_mem _ hj))]
    show fheSelect (fheEq n (idx.getD i 0)) _ r = r
    rw [h i (List.mem_cons_self _ _)]
    rfl

/-- Every position the loop of `fibonacci_additions` visits lies below `25`,
and the index table holds exactly the position there. -/
theorem ihr_visited_positions :
    ∀ j ∈ List.range' 2 (MAX_FIBONACCI_INDEX - 1),
      j < 25 ∧ build_encrypted_indices.getD j 0 = j := by decide

/-- Every position the loop of `fibonacci_lookup_with_tables` visits lies
below `25`, and the index table holds exactly the position there. -/
theorem lookup_visited_positions :
    ∀ j ∈ List.range' 1 MAX_FIBONACCI_INDEX,
      j < 25 ∧ build_encrypted_indices.getD j 0 = j := by decide

/-- On any out-of-range plaintext input (`25 ≤ n`), `fibonacci_additions`
returns the seeded default `F(1) = 1`: the seed select picks `b = 1` because
`n ≠ 0`, and no loop iteration ever matches. -/
theorem fibonacci_additions_of_ge (n : Nat) (h : 25 ≤ n) :
    fibonacci_additions n = 1 := by
  show ((List.range' 2 (MAX_FIBONACCI_INDEX - 1)).foldl
      (fibAddStep n build_encrypted_indices)
      (build_encrypted_indices.getD 0 0, build_encrypted_indices.getD 1 0,
        fheSelect (fheEq n (build_encrypted_indices.getD 0 0))
          (build_encrypted_indices.getD 0 0)
          (build_encrypted_indices.getD 1 0))).2.2 = 1
  rw [foldl_fibAddStep_no_match]
  · have h0 : build_encrypted_indices.getD 0 0 = 0 := by decide
    have h1 : build_encrypted_indices.getD 1 0 = 1 := by decide
    show fheSelect (fheEq n (build_encrypted_indices.getD 0 0)) _
      (build_encrypted_indices.getD 1 0) = 1
    rw [h0, h1]
    have hne : fheEq n 0 = false := by
      simp [fheEq]
      omega
    rw [hne]
    rfl
  · intro i hi
    have hvisit := ihr_visited_positions i hi
    rw [hvisit.2]
    simp [fheEq]
    omega

/-- On any out-of-range plaintext input (`25 ≤ n`),
`fibonacci_lookup_with_tables` over the prebuilt tables returns the initial
value `fibTable[0] = 0`: no loop iteration ever matches. -/
theorem fibonacci_lookup_of_ge (n : Nat) (h : 25 ≤ n) :
    fibonacci_lookup_with_tables n build_encrypted_indices build_encrypted_fibs
      = 0 := by
  show (List.range' 1 MAX_FIBONACCI_INDEX).foldl
      (fibLookupStep n build_encrypted_indices build_encrypted_fibs)
      (build_encrypted_fibs.getD 0 0) = 0
  rw [foldl_fibLookupStep_no_match]
  · decide
  · intro i hi
    have hvisit := lookup_visited_positions i hi
    rw [hvisit.2]
    simp [fheEq]
    omega

/-! ### Claim theorems -/

/-- C1: for every plaintext index `n` in `[0, 24]`, decrypting the result of
`fibonacci_additions` applied to an encryption of `n` yields
`fibonacci_plaintext n`. -/
theorem ihr_matches_plaintext_reference :
    ∀ n, n ≤ MAX_FIBONACCI_INDEX →
      decrypt (fibonacci_additions (encrypt n)) = fibonacci_plaintext n := by
  decide

/-- Witness for C1 at the spec scenario `n = 7` (where `F(7) = 13`). -/
theorem ihr_matches_plaintext_reference_witness :
    7 ≤ MAX_FIBONACCI_INDEX ∧
      decrypt (fibonacci_additions (encrypt 7)) = fibonacci_plaintext 7 :=
  ⟨by decide, ihr_matches_plaintext_reference 7 (by decide)⟩

/-- C2: for every plaintext index `n` in `[0, 24]`, the table-lookup strategy
over the prebuilt tables and the iterative homomorphic recurrence strategy
decrypt to the same value. -/
theorem lookup_agrees_with_ihr :
    ∀ n, n ≤ MAX_FIBONACCI_INDEX →
      decrypt (fibonacci_lookup_with_tables (encrypt n)
          build_encrypted_indices build_encrypted_fibs) =
        decrypt (fibonacci_additions (encrypt n)) := by
  decide

/-- Witness for C2 at `n = 7`. -/
theorem lookup_agrees_with_ihr_witness :
    7 ≤ MAX_FIBONACCI_INDEX ∧
      decrypt (fibonacci_lookup_with_tables (encrypt 7)
          build_encrypted_indices build_encrypted_fibs) =
        decrypt (fibonacci_additions (encrypt 7)) :=
  ⟨by decide, lookup_agrees_with_ihr 7 (by decide)⟩

/-- C3: the homomorphic operation trace of `fibonacci_additions` is the same
for any two plaintext inputs and equals the fixed schedule
`ihr_op_schedule` — one equality test and one select at table position `0`,
then one addition, one equality test and one select at each position
`i = 2..=24` in order — with `23` additions, `24` equality tests and `24`
selects in total; no step is conditional on the encrypted input. -/
theorem ihr_operation_trace_oblivious (n1 n2 : Nat) :
    (fibonacci_additions_traced n1).2 = (fibonacci_additions_traced n2).2 ∧
    (fibonacci_additions_traced n1).2 = ihr_op_schedule ∧
    (fibonacci_additions_traced n1).2.count FheOp.add = 23 ∧
    ((fibonacci_additions_traced n1).2.filter FheOp.isEqTest).length = 24 ∧
    ((fibonacci_additions_traced n1).2.filter FheOp.isSel).length = 24 := by
  have h1 := fibonacci_additions_traced_trace n1
  have h2 := fibonacci_additions_traced_trace n2
  refine ⟨h1.trans h2.symm, h1, ?_, ?_, ?_⟩ <;> rw [h1] <;> decide

/-- C4: evaluation of the input path at the disputed inputs.  Parse failures
("abc", "-1") are indeed rejected and the loop moves on to the next attempt,
and "24" is accepted — but `get_number_input` performs no range check, so the
out-of-range input "25" also parses successfully, exits the loop and is then
processed, contradicting the claimed rejection of values greater than `24`
(and the function's own documentation, which promises the range `0..=24`). -/
theorem input_loop_accepts_out_of_range :
    get_number_input "abc" = none ∧
    get_number_input "-1" = none ∧
    get_number_input "24" = some 24 ∧
    input_loop ["abc", "-1", "24"] = some 24 ∧
    get_number_input "25" = some 25 ∧
    input_loop ["25"] = some 25 ∧
    MAX_FIBONACCI_INDEX < 25 := by
  decide

/-- C5: evaluation of the plaintext reference at the failing boundary input
`n = 24`.  The claim that no intermediate addition exceeds `u16::MAX` fails
there: the final loop iteration computes `tmp = a + b` with
`a = F(23) = 28657` and `b = F(24) = 46368`, that is `F(25) = 75025`, which
exceeds `u16::MAX = 65535` — the loop advances `b` one Fibonacci number past
the returned value, so the overflow-checked run fails at `n = 24` (a panic in
a debug build) even though the returned `a` is unaffected and, under wrapping
release semantics, `fibonacci_plaintext 24 = 46368` as documented.  At
`n = 23` every addition still fits. -/
theorem plaintext_reference_overflows_at_24 :
    fibonacci_plaintext_checked 24 = none ∧
    fibonacci_plaintext 24 = 46368 ∧
    fibonacci_plaintext_checked 23 = some (fibonacci_plaintext 23) ∧
    28657 + 46368 = 75025 ∧ 65535 < 75025 := by
  refine ⟨by decide, by decide, by decide, by decide, by decide⟩

/-- C6: the plaintext table has exactly `25` entries and its `i`-th entry
equals the point evaluation `fibonacci_plaintext i` for every `i` in
`[0, 24]`. -/
theorem plain_table_matches_point_eval :
    build_fibonacci_table_plain.length = MAX_FIBONACCI_INDEX + 1 ∧
    (∀ i, i ≤ MAX_FIBONACCI_INDEX →
      build_fibonacci_table_plain.getD i 0 = fibonacci_plaintext i) := by
  refine ⟨by decide, by decide⟩

/-- Witness for C6 at `i = 24`. -/
theorem plain_table_matches_point_eval_witness :
    24 ≤ MAX_FIBONACCI_INDEX ∧
      build_fibonacci_table_plain.getD 24 0 = fibonacci_plaintext 24 :=
  ⟨by decide, plain_table_matches_point_eval.2 24 (by decide)⟩

/-- C7: the encrypted index table has exactly `25` entries, ordered so that
decrypting the `i`-th entry yields `i` for every `i` in `[0, 24]`. -/
theorem encrypted_indices_table_correct :
    build_encrypted_indices.length = MAX_FIBONACCI_INDEX + 1 ∧
    (∀ i, i ≤ MAX_FIBONACCI_INDEX →
      decrypt (build_encrypted_indices.getD i 0) = i) := by
  refine ⟨by decide, by decide⟩

/-- Witness for C7 at `i = 24`. -/
theorem encrypted_indices_table_correct_witness :
    24 ≤ MAX_FIBONACCI_INDEX ∧
      decrypt (build_encrypted_indices.getD 24 0) = 24 :=
  ⟨by decide, encrypted_indices_table_correct.2 24 (by decide)⟩

/-- C8: the encrypted Fibonacci table has exactly `25` entries, ordered so
that decrypting the `i`-th entry yields `fibonacci_plaintext i` for every
`i` in `[0, 24]`. -/
theorem encrypted_fibs_table_correct :
    build_encrypted_fibs.length = MAX_FIBONACCI_INDEX + 1 ∧
    (∀ i, i ≤ MAX_FIBONACCI_INDEX →
      decrypt (build_encrypted_fibs.getD i 0) = fibonacci_plaintext i) := by
  refine ⟨by decide, by decide⟩

/-- Witness for C8 at `i = 24`. -/
theorem encrypted_fibs_table_correct_witness :
    24 ≤ MAX_FIBONACCI_INDEX ∧
      decrypt (build_encrypted_fibs.getD 24 0) = fibonacci_plaintext 24 :=
  ⟨by decide, encrypted_fibs_table_correct.2 24 (by decide)⟩

/-- C9: for every plaintext index `n` in `[25, 65535]`, decrypting
`fibonacci_additions` on an encryption of `n` yields exactly `1`: the seed
select assigns `F(1) = 1` because `n ≠ 0`, and no equality test of the loop
ever matches, so the seeded default survives unchanged. -/
theorem ihr_out_of_range_yields_one (n : Nat) (h1 : 25 ≤ n) (h2 : n ≤ 65535) :
    decrypt (fibonacci_additions (encrypt n)) = 1 := by
  have hn : encrypt n = n := Nat.mod_eq_of_lt (show n < 65536 by omega)
  rw [hn]
  exact fibonacci_additions_of_ge n h1

/-- Witness for C9 at `n = 100`. -/
theorem ihr_out_of_range_yields_one_witness :
    25 ≤ 100 ∧ 100 ≤ 65535 ∧ decrypt (fibonacci_additions (encrypt 100)) = 1 :=
  ⟨by decide, by decide, ihr_out_of_range_yields_one 100 (by decide) (by decide)⟩

/-- C10: for every plaintext index `n` in `[25, 65535]`, decrypting the table
lookup over the prebuilt tables yields exactly `0` (the initial value
`fibTable[0]`, since no equality test matches), while the iterative strategy
yields `1` — so the two strategies disagree on every out-of-range index. -/
theorem lookup_out_of_range_yields_zero (n : Nat) (h1 : 25 ≤ n)
    (h2 : n ≤ 65535) :
    decrypt (fibonacci_lookup_with_tables (encrypt n)
        build_encrypted_indices build_encrypted_fibs) = 0 ∧
    decrypt (fibonacci_additions (encrypt n)) = 1 := by
  have hn : encrypt n = n := Nat.mod_eq_of_lt (show n < 65536 by omega)
  rw [hn]
  exact ⟨fibonacci_lookup_of_ge n h1, fibonacci_additions_of_ge n h1⟩

/-- Witness for C10 at `n = 30`. -/
theorem lookup_out_of_range_yields_zero_witness :
    25 ≤ 30 ∧ 30 ≤ 65535 ∧
      (decrypt (fibonacci_lookup_with_tables (encrypt 30)
          build_encrypted_indices build_encrypted_fibs) = 0 ∧
        decrypt (fibonacci_additions (encrypt 30)) = 1) :=
  ⟨by decide, by decide,
    lookup_out_of_range_yields_zero 30 (by decide) (by decide)⟩

end FibFhe
